import Mathlib

/-!
Verification of the OpenKalsh market-data normalization core.

This file gives a shallow embedding of the data-normalization logic of the
repository (URL intent parsing, price extraction, outcome building, slug
generation, browse-list building, and the entrypoint error conversion) and
proves or refutes the frozen specification claims about it.

Modelling conventions:
* Python dict fields become `Option`-typed record fields; a missing key is
  `none`.
* Python numbers are modelled as `Rat` (exact arithmetic; IEEE floating
  point rounding error is idealized away) and `round` as round-half-to-even,
  which is the Python rounding mode for floats.
* Python functions that can raise become `Except String` valued functions.
* Case mapping (`upper`, `lower`) and whitespace stripping are modelled on
  the ASCII range; theorems that depend on case mapping carry an ASCII
  hypothesis where the distinction matters.
-/

namespace OpenKalsh

/-- ASCII whitespace characters stripped by the Python `str.strip` method
(space, tab, newline, carriage return, vertical tab, form feed, and the
four ASCII separator control characters). -/
def isPySpace (c : Char) : Bool :=
  c = ' ' ∨ c = '\t' ∨ c = '\n' ∨ c = '\r' ∨ c = '\x0b' ∨ c = '\x0c' ∨
  c = '\x1c' ∨ c = '\x1d' ∨ c = '\x1e' ∨ c = '\x1f'

/-- Drop matching characters from both ends of a character list,
modelling the two-sided Python `str.strip` behaviour. -/
def stripEdge (p : Char → Bool) (l : List Char) : List Char :=
  ((l.dropWhile p).reverse.dropWhile p).reverse

/-- Python `str.strip()` with no argument: remove whitespace from both ends. -/
def pyStrip (s : String) : String :=
  ⟨stripEdge isPySpace s.data⟩

/-- ASCII uppercase mapping for one character, modelling Python `str.upper`
on the ASCII range (non-ASCII case mapping is not modelled). -/
def pyUpperChar (c : Char) : Char :=
  if 97 ≤ c.toNat ∧ c.toNat ≤ 122 then Char.ofNat (c.toNat - 32) else c

/-- ASCII lowercase mapping for one character, modelling Python `str.lower`
on the ASCII range (non-ASCII case mapping is not modelled). -/
def pyLowerChar (c : Char) : Char :=
  if 65 ≤ c.toNat ∧ c.toNat ≤ 90 then Char.ofNat (c.toNat + 32) else c

/-- Python `str.upper` restricted to ASCII case mapping. -/
def pyUpper (s : String) : String :=
  ⟨s.data.map pyUpperChar⟩

/-- Python `str.lower` restricted to ASCII case mapping. -/
def pyLower (s : String) : String :=
  ⟨s.data.map pyLowerChar⟩

/-- Round-half-to-even on rationals, the rounding rule used by the Python
built-in `round` on floats. -/
def roundHalfEven (q : ℚ) : ℤ :=
  if q - ⌊q⌋ < 1/2 then ⌊q⌋
  else if 1/2 < q - ⌊q⌋ then ⌊q⌋ + 1
  else if ⌊q⌋ % 2 = 0 then ⌊q⌋ else ⌊q⌋ + 1

/-- The structured intent produced by the URL parser: the four shapes of
the dicts returned by `parse_kalshi_url`. -/
inductive Intent : Type where
  | home : Intent
  | category (category_slug : String) : Intent
  | market (event_ticker : String) : Intent
  | eventTicker (event_ticker : String) : Intent
deriving DecidableEq, Repr

/-- A raw market record as read from the API JSON: the fields of the
nested market dicts that the conversion code accesses. -/
structure RawMarket : Type where
  ticker : Option String := none
  yes_sub_title : Option String := none
  title : Option String := none
  last_price : Option ℚ := none
  yes_ask : Option ℚ := none
  yes_bid : Option ℚ := none
deriving DecidableEq, Repr

/-- A raw event record as read from the API JSON: the fields of the event
dicts that the conversion code accesses.  A missing `markets` key and an
empty markets list are indistinguishable to the code (both are falsy), so
`markets` is a plain list. -/
structure RawEvent : Type where
  title : Option String := none
  event_ticker : Option String := none
  series_ticker : Option String := none
  mutually_exclusive : Option Bool := none
  markets : List RawMarket := []
deriving DecidableEq, Repr

/-- One labeled outcome with its price in cents and original display text. -/
structure Outcome : Type where
  label : String
  price_cents : ℤ
  raw : String
deriving DecidableEq, Repr

/-- The market result dict returned to the caller. -/
structure MarketResult : Type where
  title : Option String
  outcomes : List Outcome
  status : String
  error : Option String
deriving DecidableEq, Repr

/-- One browse-list entry. -/
structure BrowseEntry : Type where
  title : String
  url : String
deriving DecidableEq, Repr

/-- Characters at or below the space codepoint; the CPython URL splitter
strips these from the left of its input (WHATWG C0-control-or-space). -/
def isC0OrSpace (c : Char) : Bool :=
  c.toNat ≤ 32

/-- Tab, carriage return, newline; the CPython URL splitter removes all
occurrences of these from its input. -/
def isUnsafeUrlByte (c : Char) : Bool :=
  c = '\t' ∨ c = '\r' ∨ c = '\n'

/-- Characters permitted in a URL scheme by the CPython URL splitter. -/
def isSchemeChar (c : Char) : Bool :=
  (65 ≤ c.toNat ∧ c.toNat ≤ 90) ∨ (97 ≤ c.toNat ∧ c.toNat ≤ 122) ∨
  (48 ≤ c.toNat ∧ c.toNat ≤ 57) ∨ c = '+' ∨ c = '-' ∨ c = '.'

/-- ASCII alphabetic character (the CPython check on the first scheme char). -/
def isAsciiAlpha (c : Char) : Bool :=
  (65 ≤ c.toNat ∧ c.toNat ≤ 90) ∨ (97 ≤ c.toNat ∧ c.toNat ≤ 122)

/-- Split a leading `scheme:` prefix off a URL, following the CPython URL
splitter: there must be a colon at a positive index, the first character
must be an ASCII letter, and every character before the colon must be a
scheme character; otherwise the URL is unchanged with an empty scheme.
Returns the lower-cased scheme and the remainder after the colon. -/
def splitScheme (l : List Char) : String × List Char :=
  let pre := l.takeWhile (fun c => c ≠ ':')
  if pre.length < l.length ∧ pre ≠ [] ∧
      (pre.headD ' ' |> isAsciiAlpha) ∧ (∀ c ∈ pre, isSchemeChar c) then
    (⟨pre.map pyLowerChar⟩, l.drop (pre.length + 1))
  else
    ("", l)

/-- Network-location delimiters: the netloc extends to the first of these. -/
def isNetlocDelim (c : Char) : Bool :=
  c = '/' ∨ c = '?' ∨ c = '#'

/-- The schemes for which CPython `urlparse` splits `;params` off the path. -/
def usesParams : List String :=
  ["", "ftp", "hdl", "prospero", "http", "imap", "https", "shttp", "rtsp",
   "rtspu", "rtsps", "sip", "sips", "mms", "sftp", "tel"]

/-- Drop the fragment part (everything from the first `#`). -/
def dropFragment (l : List Char) : List Char :=
  if '#' ∈ l then l.takeWhile (fun c => c ≠ '#') else l

/-- Drop the query part (everything from the first `?`). -/
def dropQuery (l : List Char) : List Char :=
  if '?' ∈ l then l.takeWhile (fun c => c ≠ '?') else l

/-- Split `;params` off the path, following CPython `_splitparams`: when the
path contains a slash, only a semicolon in the last segment counts;
otherwise the path is cut at its first semicolon. -/
def dropParams (scheme : String) (l : List Char) : List Char :=
  if ';' ∈ l ∧ scheme ∈ usesParams then
    if '/' ∈ l then
      let lastSeg := (l.reverse.takeWhile (fun c => c ≠ '/')).reverse
      if ';' ∈ lastSeg then
        l.take (l.length - lastSeg.length) ++ lastSeg.takeWhile (fun c => c ≠ ';')
      else l
    else l.takeWhile (fun c => c ≠ ';')
  else l

/-- Extract the path component of a URL, modelling the CPython
`urlparse`/`urlsplit` pipeline: left-strip control-or-space characters,
remove tab/CR/LF, split off the scheme, split off the netloc after `//`
(raising `ValueError` when the netloc has an unbalanced square bracket),
then drop fragment, query, and params.  The NFKC netloc check, which can
only fire on non-ASCII netlocs, is not modelled. -/
def urlparsePath (l : List Char) : Except String (List Char) :=
  let l1 := l.dropWhile isC0OrSpace
  let l2 := l1.filter (fun c => !isUnsafeUrlByte c)
  let (scheme, l3) := splitScheme l2
  if l3.take 2 = ['/', '/'] then
    let netloc := (l3.drop 2).takeWhile (fun c => !isNetlocDelim c)
    let rest := (l3.drop 2).dropWhile (fun c => !isNetlocDelim c)
    if ('[' ∈ netloc ∧ ']' ∉ netloc) ∨ (']' ∈ netloc ∧ '[' ∉ netloc) then
      .error "Invalid IPv6 URL"
    else
      .ok (dropParams scheme (dropQuery (dropFragment rest)))
  else
    .ok (dropParams scheme (dropQuery (dropFragment l3)))

/-- Classify the slash-separated path segments into an intent, following
the if-chain of `parse_kalshi_url` (category, sports, markets with three
or more segments, markets with exactly two, else home). -/
def classifySegments (segments : List String) : Intent :=
  match segments with
  | "category" :: s1 :: _ => .category s1
  | "sports" :: s1 :: _ => .category s1
  | "markets" :: _ :: s2 :: rest =>
      .market (pyUpper ((s2 :: rest).getLast (List.cons_ne_nil _ _)))
  | ["markets", s1] => .market (pyUpper s1)
  | _ => .home

/-- Parse a Kalshi URL or bare ticker into a structured intent, modelling
`parse_kalshi_url`: strip the input, take the bare-ticker shortcut when it
has neither slash nor dot, otherwise extract the URL path, trim slashes,
and classify the segments.  An exception raised by the URL parser is
modelled as `Except.error`. -/
def parse_kalshi_url (url : String) : Except String Intent :=
  let stripped := pyStrip url
  if '/' ∈ stripped.data ∨ '.' ∈ stripped.data then
    match urlparsePath stripped.data with
    | .error e => .error e
    | .ok rawPath =>
      let path : String := ⟨stripEdge (fun c => c = '/') rawPath⟩
      if path = "" then .ok .home
      else .ok (classifySegments (path.splitOn "/"))
  else
    .ok (.eventTicker (pyUpper stripped))

/-- Extract the price in cents from a market record, modelling
`_market_price_cents`: try `last_price`, fall back to `yes_ask`, then to
`yes_bid`; round the first present value, else return `none`. -/
def _market_price_cents (market : RawMarket) : Option ℤ :=
  let price := market.last_price
  let price := match price with
    | none => market.yes_ask
    | some p => some p
  let price := match price with
    | none => market.yes_bid
    | some p => some p
  match price with
  | some p => some (roundHalfEven p)
  | none => none

/-- Python truthiness chaining `a or b` for an optional string against a
string default: a missing value and the empty string both fall through. -/
def orFalsy (a : Option String) (b : String) : String :=
  match a with
  | some s => if s = "" then b else s
  | none => b

/-- The outcome label of a market in multi-outcome mode, modelling the
chain `yes_sub_title or title or ticker-with-empty-default`. -/
def marketLabel (m : RawMarket) : String :=
  orFalsy m.yes_sub_title (orFalsy m.title (m.ticker.getD ""))

/-- The outcome list built from a non-empty market list `m :: rest`: a
single non-mutually-exclusive market synthesizes Yes/No outcomes from its
price (the binary branch of `event_to_market_result`); otherwise each
market with a usable price yields one labeled outcome and markets without
a price are skipped (the multi-outcome branch). -/
def buildOutcomes (mutually_exclusive : Bool) (m : RawMarket)
    (rest : List RawMarket) : List Outcome :=
  if rest = [] ∧ mutually_exclusive = false then
    match _market_price_cents m with
    | some yes_price =>
        [⟨"Yes", yes_price, toString yes_price ++ "%"⟩,
         ⟨"No", 100 - yes_price, toString (100 - yes_price) ++ "%"⟩]
    | none => []
  else
    (m :: rest).filterMap fun mk =>
      (_market_price_cents mk).map fun price =>
        ⟨marketLabel mk, price, toString price ++ "%"⟩

/-- Convert an API event into a market result, modelling
`event_to_market_result`: zero markets give `no_outcomes_found` with an
error message; otherwise the outcomes come from `buildOutcomes` and the
status is `ok` exactly when the outcome list is non-empty, with a null
error field. -/
def event_to_market_result (event : RawEvent) : MarketResult :=
  match event.markets with
  | [] =>
    { title := event.title, outcomes := [], status := "no_outcomes_found",
      error := some "No markets found for this event." }
  | m :: rest =>
    let outcomes := buildOutcomes (event.mutually_exclusive.getD false) m rest
    { title := event.title, outcomes := outcomes,
      status := if outcomes = [] then "no_outcomes_found" else "ok",
      error := none }

/-- Lower-case alphanumeric character, the character class kept by the
slug regular expression `[^a-z0-9]+`. -/
def isLowerAlnum (c : Char) : Bool :=
  (97 ≤ c.toNat ∧ c.toNat ≤ 122) ∨ (48 ≤ c.toNat ∧ c.toNat ≤ 57)

/-- Replace every maximal run of non-(lower-alphanumeric) characters with
a single hyphen, modelling `re.sub` with pattern `[^a-z0-9]+`. -/
def collapseRuns : List Char → List Char
  | [] => []
  | [c] => if isLowerAlnum c then [c] else ['-']
  | c :: d :: rest =>
    if isLowerAlnum c then c :: collapseRuns (d :: rest)
    else if isLowerAlnum d then '-' :: collapseRuns (d :: rest)
    else collapseRuns (d :: rest)

/-- The slug before truncation: lower-case, collapse non-alphanumeric
runs to hyphens, strip hyphens from both ends. -/
def slugCore (title : String) : List Char :=
  stripEdge (fun c => c = '-') (collapseRuns (pyLower title).data)

/-- Convert a title into a URL slug, modelling `_ticker_to_slug`:
lower-case, collapse non-alphanumeric runs to single hyphens, strip edge
hyphens, then truncate to 60 characters. -/
def _ticker_to_slug (title : String) : String :=
  ⟨(slugCore title).take 60⟩

/-- The base web URL constant. -/
def KALSHI_WEB : String := "https://kalshi.com"

/-- Whether a browse event is kept: both title and event ticker must be
present and non-empty (Python truthiness of `event.get` with a default of
the empty string). -/
def keepEvent (e : RawEvent) : Bool :=
  ¬(e.title.getD "" = "" ∨ e.event_ticker.getD "" = "")

/-- The browse entry built from a kept event: the title and a
reconstructed web URL `/markets/<series>/<slug>/<ticker>` with the series
and event tickers lower-cased. -/
def mkBrowseEntry (e : RawEvent) : BrowseEntry :=
  let title := e.title.getD ""
  let ticker := e.event_ticker.getD ""
  let series_ticker := e.series_ticker.getD ""
  { title := title,
    url := KALSHI_WEB ++ "/markets/" ++ pyLower series_ticker ++ "/" ++
           _ticker_to_slug title ++ "/" ++ pyLower ticker }

/-- The loop of `events_to_browse_list`, with `n` the number of results
accumulated so far: skip events without title or ticker, append an entry
for each kept event, and break once the count reaches `max_markets`. -/
def browseGo (max_markets : ℤ) : List RawEvent → ℕ → List BrowseEntry
  | [], _ => []
  | e :: rest, n =>
    if keepEvent e then
      if ((n : ℤ) + 1) ≥ max_markets then [mkBrowseEntry e]
      else mkBrowseEntry e :: browseGo max_markets rest (n + 1)
    else browseGo max_markets rest n

/-- Convert API events into a browse list, modelling
`events_to_browse_list`. -/
def events_to_browse_list (events : List RawEvent) (max_markets : ℤ) :
    List BrowseEntry :=
  browseGo max_markets events 0

/-- Remove currency and percent glyphs and strip whitespace, the
preprocessing step of the textual price extractor. -/
def stripGlyphs (s : String) : String :=
  ⟨stripEdge isPySpace
    (s.data.filter (fun c => ¬(c = '¢' ∨ c = '$' ∨ c = '%')))⟩

/-- The token matched by the pattern at a position that starts with a
digit: a maximal digit run, an optional dot, then a maximal digit run. -/
def numToken (l : List Char) : List Char :=
  let ds := l.takeWhile Char.isDigit
  match l.dropWhile Char.isDigit with
  | '.' :: r2 => ds ++ '.' :: r2.takeWhile Char.isDigit
  | _ => ds

/-- Find the first match of the decimal-number pattern, modelling
`re.search` with pattern digits, optional dot, digits. -/
def findFirstNumber : List Char → Option (List Char)
  | [] => none
  | c :: rest =>
    if c.isDigit then some (numToken (c :: rest))
    else findFirstNumber rest

/-- The numeric value of one digit character. -/
def digitVal (c : Char) : ℕ := c.toNat - 48

/-- The natural number denoted by a digit list. -/
def digitsToNat (l : List Char) : ℕ :=
  l.foldl (fun n c => 10 * n + digitVal c) 0

/-- The rational value of a matched number token (`float` of the token:
integer part, and fractional part scaled by a power of ten). -/
def ratOfToken (l : List Char) : ℚ :=
  let ip := l.takeWhile (fun c => c ≠ '.')
  match l.dropWhile (fun c => c ≠ '.') with
  | '.' :: fp => (digitsToNat ip : ℚ) + (digitsToNat fp : ℚ) / (10 : ℚ) ^ fp.length
  | _ => (digitsToNat ip : ℚ)

/-- Extract a numeric price in cents from display text, modelling
`_parse_price`: remove cent, dollar and percent glyphs, strip whitespace,
find the first decimal number; a value below one is scaled by 100 before
rounding, otherwise it is rounded directly; no numeric token gives `none`. -/
def _parse_price (raw : String) : Option ℤ :=
  match findFirstNumber (stripGlyphs raw).data with
  | some tok =>
    let value := ratOfToken tok
    if value < 1 then some (roundHalfEven (value * 100))
    else some (roundHalfEven value)
  | none => none

/-- The deduplication key of an outcome: its label and price pair. -/
def outcomeKey (o : Outcome) : String × ℤ :=
  (o.label, o.price_cents)

/-- The deduplication loop of `scrape_market_page`, with `seen` the set of
keys already kept (modelled as a list with membership): keep an outcome
exactly when its key has not been seen. -/
def dedupGo : List (String × ℤ) → List Outcome → List Outcome
  | _, [] => []
  | seen, o :: rest =>
    if outcomeKey o ∈ seen then dedupGo seen rest
    else o :: dedupGo (outcomeKey o :: seen) rest

/-- Deduplicate an outcome list by (label, price) keeping first
occurrences, modelling the de-duplication step of the scraping path. -/
def dedupOutcomes (l : List Outcome) : List Outcome :=
  dedupGo [] l

/-- The event ticker carried by an intent, when present: the
`parsed.get` access in the entrypoint. -/
def getEventTicker : Intent → Option String
  | .market t => some t
  | .eventTicker t => some t
  | _ => none

/-- The plugin entrypoint for a single market, modelling `market` in
`main.py` with the transport collaborator abstracted as `fetchEv`: parse
the URL (propagating a parser exception), return an error-shaped result
when no truthy event ticker is present, convert a collaborator error into
an error-shaped result, and otherwise convert the fetched event. -/
def marketEntry (fetchEv : String → Except String RawEvent) (url : String) :
    Except String MarketResult :=
  match parse_kalshi_url url with
  | .error e => .error e
  | .ok intent =>
    let event_ticker := (getEventTicker intent).getD ""
    if event_ticker = "" then
      .ok { title := none, outcomes := [], status := "error",
            error := some ("Could not extract event ticker from URL: " ++ url) }
    else
      match fetchEv event_ticker with
      | .error msg =>
        .ok { title := none, outcomes := [], status := "error",
              error := some msg }
      | .ok event => .ok (event_to_market_result event)

/-- No two adjacent hyphens in a character list. -/
def NoAdjHyphen (l : List Char) : Prop :=
  List.Chain' (fun a b => ¬(a = '-' ∧ b = '-')) l

theorem mem_of_mem_stripEdge {p : Char → Bool} {l : List Char} {c : Char}
    (h : c ∈ stripEdge p l) : c ∈ l := by
  unfold stripEdge at h
  rw [List.mem_reverse] at h
  have h2 := (List.dropWhile_sublist _).subset h
  rw [List.mem_reverse] at h2
  exact (List.dropWhile_sublist _).subset h2

theorem stripEdge_isPrefix (p : Char → Bool) (l : List Char) :
    stripEdge p l <+: l.dropWhile p := by
  unfold stripEdge
  have h0 : (l.dropWhile p).reverse.dropWhile p <:+ (l.dropWhile p).reverse :=
    List.dropWhile_suffix p
  have h1 := List.reverse_prefix.mpr h0
  rwa [List.reverse_reverse] at h1

theorem stripEdge_within (p : Char → Bool) (l : List Char) :
    stripEdge p l <:+: l :=
  (stripEdge_isPrefix p l).isInfix.trans (List.dropWhile_suffix p).isInfix

theorem head?_dropWhile_false {p : Char → Bool} {l : List Char} {c : Char}
    (h : (l.dropWhile p).head? = some c) : p c = false := by
  induction l with
  | nil => simp at h
  | cons a t ih =>
    rw [List.dropWhile_cons] at h
    by_cases hp : p a
    · rw [if_pos hp] at h
      exact ih h
    · rw [if_neg hp] at h
      simp at h
      subst h
      simpa using hp

theorem stripEdge_head {p : Char → Bool} {l : List Char} {c : Char}
    (h : (stripEdge p l).head? = some c) : p c = false := by
  have hpre := stripEdge_isPrefix p l
  cases hse : stripEdge p l with
  | nil => rw [hse] at h; cases h
  | cons a t2 =>
    rw [hse] at h hpre
    have hac : a = c := by simpa using h
    subst hac
    obtain ⟨t, ht⟩ := hpre
    have hhead : (l.dropWhile p).head? = some a := by
      rw [← ht]; rfl
    exact head?_dropWhile_false hhead

theorem stripEdge_getLast {p : Char → Bool} {l : List Char} {c : Char}
    (h : (stripEdge p l).getLast? = some c) : p c = false := by
  unfold stripEdge at h
  rw [List.getLast?_reverse] at h
  exact head?_dropWhile_false h

theorem dropWhile_eq_self_of_head {p : Char → Bool} {l : List Char}
    (h : ∀ c, l.head? = some c → p c = false) : l.dropWhile p = l := by
  cases l with
  | nil => rfl
  | cons a t =>
    rw [List.dropWhile_cons, if_neg]
    simp [h a rfl]

theorem stripEdge_eq_self {p : Char → Bool} {l : List Char}
    (hh : ∀ c, l.head? = some c → p c = false)
    (hl : ∀ c, l.getLast? = some c → p c = false) : stripEdge p l = l := by
  unfold stripEdge
  rw [dropWhile_eq_self_of_head hh]
  rw [dropWhile_eq_self_of_head (by
    intro c hc
    rw [List.head?_reverse] at hc
    exact hl c hc)]
  exact List.reverse_reverse l

theorem map_eq_self_of_fixed {f : Char → Char} :
    ∀ l : List Char, (∀ c ∈ l, f c = c) → l.map f = l := by
  intro l
  induction l with
  | nil => intro _; rfl
  | cons a t ih =>
    intro h
    rw [List.map_cons, h a (List.mem_cons_self _ _), ih fun c hc => h c (List.mem_cons_of_mem _ hc)]

theorem head?_take_sixty (l : List Char) : (l.take 60).head? = l.head? := by
  cases l with
  | nil => rfl
  | cons a t => rfl

theorem roundHalfEven_intCast (n : ℤ) : roundHalfEven ((n : ℤ) : ℚ) = n := by
  unfold roundHalfEven
  rw [Int.floor_intCast, sub_self, if_pos (by norm_num : (0 : ℚ) < 1/2)]

theorem roundHalfEven_ge (q : ℚ) (n : ℤ) (h : (n : ℚ) ≤ q) :
    n ≤ roundHalfEven q := by
  have hf : n ≤ ⌊q⌋ := Int.le_floor.mpr h
  unfold roundHalfEven
  split
  · exact hf
  · split
    · omega
    · split <;> omega

theorem roundHalfEven_le (q : ℚ) (n : ℤ) (h : q ≤ (n : ℚ)) :
    roundHalfEven q ≤ n := by
  have hfn : ⌊q⌋ ≤ n := by
    have h2 := Int.floor_le_floor h
    simpa using h2
  unfold roundHalfEven
  split
  · exact hfn
  · rename_i h1
    have hge : (1 : ℚ)/2 ≤ q - ⌊q⌋ := le_of_not_lt h1
    have hlt : (⌊q⌋ : ℚ) < (n : ℚ) := by linarith
    have hltz : ⌊q⌋ < n := by exact_mod_cast hlt
    split
    · omega
    · split <;> omega

/-- C1 counterexample: on an event with one market carrying no price
fields, the result has status no_outcomes_found but a null error field,
refuting the claimed equivalence between a non-null error and a status of
error or no_outcomes_found. -/
theorem c1_counterexample :
    (event_to_market_result
      { title := some "NoPrice", mutually_exclusive := some false,
        markets := [{ ticker := some "T" }] }).status = "no_outcomes_found" ∧
    (event_to_market_result
      { title := some "NoPrice", mutually_exclusive := some false,
        markets := [{ ticker := some "T" }] }).error = none := by
  constructor <;> rfl

/-- C1 amended: status is ok exactly when the outcome list is non-empty;
the error field is non-null exactly when the event has zero markets, and
in that zero-markets case status is no_outcomes_found with no outcomes. -/
theorem c1_status_error_invariant (ev : RawEvent) :
    ((event_to_market_result ev).status = "ok" ↔
      (event_to_market_result ev).outcomes ≠ []) ∧
    ((event_to_market_result ev).error ≠ none ↔ ev.markets = []) ∧
    (ev.markets = [] →
      (event_to_market_result ev).status = "no_outcomes_found" ∧
      (event_to_market_result ev).outcomes = []) := by
  unfold event_to_market_result
  cases hm : ev.markets with
  | nil => refine ⟨by simp, by simp, fun _ => ⟨rfl, rfl⟩⟩
  | cons m rest =>
    dsimp only
    refine ⟨?_, by simp, by simp⟩
    by_cases h : buildOutcomes (ev.mutually_exclusive.getD false) m rest = [] <;>
      simp [h]

/-- C1 witness: the invariant instantiated at a concrete zero-markets
event, with the hypothesis of the zero-markets conjunct discharged. -/
theorem c1_status_error_invariant_witness :
    (event_to_market_result { title := some "Empty" }).status =
      "no_outcomes_found" ∧
    (event_to_market_result { title := some "Empty" }).outcomes = [] :=
  (c1_status_error_invariant { title := some "Empty" }).2.2 rfl

/-- C2: on an event with exactly one market that is not mutually
exclusive, a price `p` from the fallback chain yields exactly two
outcomes, Yes at `p` and No at `100 - p` (so they sum to 100), with
status ok; and no price yields zero outcomes. -/
theorem c2_binary_synthesis (ev : RawEvent) (m : RawMarket)
    (hm : ev.markets = [m]) (hme : ev.mutually_exclusive.getD false = false) :
    (∀ p : ℤ, _market_price_cents m = some p →
      (event_to_market_result ev).outcomes =
        [{ label := "Yes", price_cents := p, raw := toString p ++ "%" },
         { label := "No", price_cents := 100 - p,
           raw := toString (100 - p) ++ "%" }] ∧
      (event_to_market_result ev).status = "ok" ∧
      (∀ o1 o2 : Outcome, (event_to_market_result ev).outcomes = [o1, o2] →
        o1.price_cents + o2.price_cents = 100)) ∧
    (_market_price_cents m = none →
      (event_to_market_result ev).outcomes = []) := by
  constructor
  · intro p hp
    have hb : buildOutcomes (ev.mutually_exclusive.getD false) m [] =
        [{ label := "Yes", price_cents := p, raw := toString p ++ "%" },
         { label := "No", price_cents := 100 - p,
           raw := toString (100 - p) ++ "%" }] := by
      rw [hme]
      simp [buildOutcomes, hp]
    have hres : event_to_market_result ev =
        { title := ev.title,
          outcomes :=
            [{ label := "Yes", price_cents := p, raw := toString p ++ "%" },
             { label := "No", price_cents := 100 - p,
               raw := toString (100 - p) ++ "%" }],
          status := "ok", error := none } := by
      unfold event_to_market_result
      rw [hm]
      dsimp only
      rw [hb]
      simp
    refine ⟨by rw [hres], by rw [hres], ?_⟩
    intro o1 o2 heq
    rw [hres] at heq
    simp only [List.cons.injEq, and_true] at heq
    obtain ⟨h1, h2⟩ := heq
    rw [← h1, ← h2]
    show p + (100 - p) = 100
    omega
  · intro hp
    unfold event_to_market_result
    rw [hm]
    dsimp only
    rw [hme]
    simp [buildOutcomes, hp]

/-- C2 witness: the binary synthesis applied to the concrete test event
with price 65, giving the Yes/No pair (65, 35) and status ok. -/
theorem c2_binary_synthesis_witness :
    (event_to_market_result
      { title := some "Will it rain tomorrow?", mutually_exclusive := some false,
        markets := [{ ticker := some "RAIN-YES", last_price := some 65 }] }).outcomes =
      [{ label := "Yes", price_cents := 65, raw := toString (65 : ℤ) ++ "%" },
       { label := "No", price_cents := 100 - 65,
         raw := toString ((100 : ℤ) - 65) ++ "%" }] ∧
    (event_to_market_result
      { title := some "Will it rain tomorrow?", mutually_exclusive := some false,
        markets := [{ ticker := some "RAIN-YES", last_price := some 65 }] }).status =
      "ok" := by
  have h65 : roundHalfEven (65 : ℚ) = (65 : ℤ) := by
    rw [show (65 : ℚ) = ((65 : ℤ) : ℚ) by norm_num]
    exact roundHalfEven_intCast 65
  have h := (c2_binary_synthesis
    { title := some "Will it rain tomorrow?", mutually_exclusive := some false,
      markets := [{ ticker := some "RAIN-YES", last_price := some 65 }] }
    { ticker := some "RAIN-YES", last_price := some 65 }
    rfl rfl).1 65 (by simp [_market_price_cents, h65])
  exact ⟨h.1, h.2.1⟩

/-- C3 counterexample: the extractor does not clamp, so a market whose
last price field holds 150 yields 150, outside the claimed range. -/
theorem c3_counterexample :
    _market_price_cents ({ last_price := some 150 } : RawMarket) = some 150 ∧
    ¬((150 : ℤ) ≤ 100) := by
  have h150 : roundHalfEven (150 : ℚ) = (150 : ℤ) := by
    rw [show (150 : ℚ) = ((150 : ℤ) : ℚ) by norm_num]
    exact roundHalfEven_intCast 150
  exact ⟨by simp [_market_price_cents, h150], by decide⟩

/-- C3 amended: the extractor checks last price, yes ask, then yes bid in
that order, rounds the first present value half-to-even, is absent exactly
when all three are missing, and its output lies in the range 0 to 100
whenever the chosen field value does (no clamping is performed). -/
theorem c3_price_fallback (m : RawMarket) :
    (m.last_price = none → m.yes_ask = none → m.yes_bid = none →
      _market_price_cents m = none) ∧
    (∀ q : ℚ, m.last_price = some q →
      _market_price_cents m = some (roundHalfEven q)) ∧
    (∀ q : ℚ, m.last_price = none → m.yes_ask = some q →
      _market_price_cents m = some (roundHalfEven q)) ∧
    (∀ q : ℚ, m.last_price = none → m.yes_ask = none → m.yes_bid = some q →
      _market_price_cents m = some (roundHalfEven q)) ∧
    (∀ q : ℚ, 0 ≤ q → q ≤ 100 →
      (m.last_price = some q ∨ m.last_price = none ∧ m.yes_ask = some q ∨
        m.last_price = none ∧ m.yes_ask = none ∧ m.yes_bid = some q) →
      _market_price_cents m = some (roundHalfEven q) ∧
        0 ≤ roundHalfEven q ∧ roundHalfEven q ≤ 100) := by
  refine ⟨?_, ?_, ?_, ?_, ?_⟩
  · intro h1 h2 h3; simp [_market_price_cents, h1, h2, h3]
  · intro q h1; simp [_market_price_cents, h1]
  · intro q h1 h2; simp [_market_price_cents, h1, h2]
  · intro q h1 h2 h3; simp [_market_price_cents, h1, h2, h3]
  · intro q h0 h100 hsel
    have heq : _market_price_cents m = some (roundHalfEven q) := by
      rcases hsel with h | ⟨h1, h2⟩ | ⟨h1, h2, h3⟩
      · simp [_market_price_cents, h]
      · simp [_market_price_cents, h1, h2]
      · simp [_market_price_cents, h1, h2, h3]
    refine ⟨heq, roundHalfEven_ge q 0 (by exact_mod_cast h0),
      roundHalfEven_le q 100 (by exact_mod_cast h100)⟩

/-- C3 witness: the amended statement applied at a market with last price
83, giving 83 inside the range. -/
theorem c3_price_fallback_witness :
    _market_price_cents ({ last_price := some 83 } : RawMarket) =
      some (roundHalfEven 83) ∧
    0 ≤ roundHalfEven (83 : ℚ) ∧ roundHalfEven (83 : ℚ) ≤ 100 := by
  have h := (c3_price_fallback { last_price := some 83 }).2.2.2.2 83
    (by norm_num) (by norm_num) (Or.inl rfl)
  exact ⟨h.1, h.2.1, h.2.2⟩

theorem findFirstNumber_eq_none {l : List Char}
    (h : ∀ c ∈ l, c.isDigit = false) : findFirstNumber l = none := by
  induction l with
  | nil => rfl
  | cons a t ih =>
    unfold findFirstNumber
    rw [if_neg]
    · exact ih fun c hc => h c (List.mem_cons_of_mem _ hc)
    · simp [h a (List.mem_cons_self _ _)]

/-- C8: the textual price extractor returns 47 on each of the three
glyph forms; it returns absent whenever the input has no digit at all;
and on any input whose glyph-stripped text matches a number token, it
scales a value below one by 100 before rounding and rounds directly
otherwise. -/
theorem c8_parse_price :
    (_parse_price "$0.47" = some 47 ∧ _parse_price "47" = some 47 ∧
      _parse_price "47%" = some 47) ∧
    (∀ s : String, (∀ c ∈ s.data, c.isDigit = false) → _parse_price s = none) ∧
    (∀ (s : String) (tok : List Char),
      findFirstNumber (stripGlyphs s).data = some tok →
      _parse_price s =
        some (if ratOfToken tok < 1 then roundHalfEven (ratOfToken tok * 100)
              else roundHalfEven (ratOfToken tok))) := by
  have h47 : roundHalfEven ((47 : ℕ) : ℚ) = (47 : ℤ) := by
    rw [show ((47 : ℕ) : ℚ) = ((47 : ℤ) : ℚ) by norm_num]
    exact roundHalfEven_intCast 47
  have hcase47 : ratOfToken ['4', '7'] = ((digitsToNat ['4', '7'] : ℕ) : ℚ) := rfl
  have hd47 : digitsToNat ['4', '7'] = 47 := by decide
  refine ⟨⟨?_, ?_, ?_⟩, ?_, ?_⟩
  · have h1 : findFirstNumber (stripGlyphs "$0.47").data =
        some ['0', '.', '4', '7'] := by decide
    unfold _parse_price
    rw [h1]
    dsimp only
    have hv : ratOfToken ['0', '.', '4', '7'] =
        ((digitsToNat ['0'] : ℕ) : ℚ) +
          ((digitsToNat ['4', '7'] : ℕ) : ℚ) / (10 : ℚ) ^ 2 := rfl
    rw [hv, show digitsToNat ['0'] = 0 from by decide, hd47]
    rw [if_pos (by norm_num : ((0 : ℕ) : ℚ) + ((47 : ℕ) : ℚ) / (10 : ℚ) ^ 2 < 1)]
    have hmul : (((0 : ℕ) : ℚ) + ((47 : ℕ) : ℚ) / (10 : ℚ) ^ 2) * 100 =
        ((47 : ℤ) : ℚ) := by norm_num
    rw [hmul, roundHalfEven_intCast]
  · have h1 : findFirstNumber (stripGlyphs "47").data = some ['4', '7'] := by
      decide
    unfold _parse_price
    rw [h1]
    dsimp only
    rw [hcase47, hd47]
    rw [if_neg (by norm_num : ¬(((47 : ℕ) : ℚ) < 1))]
    rw [h47]
  · have h1 : findFirstNumber (stripGlyphs "47%").data = some ['4', '7'] := by
      decide
    unfold _parse_price
    rw [h1]
    dsimp only
    rw [hcase47, hd47]
    rw [if_neg (by norm_num : ¬(((47 : ℕ) : ℚ) < 1))]
    rw [h47]
  · intro s h
    have h2 : ∀ c ∈ (stripGlyphs s).data, c.isDigit = false := by
      intro c hc
      apply h
      have hc' : c ∈ stripEdge isPySpace
          (s.data.filter (fun c => ¬(c = '¢' ∨ c = '$' ∨ c = '%'))) := hc
      exact (List.filter_sublist _).subset (mem_of_mem_stripEdge hc')
    unfold _parse_price
    rw [findFirstNumber_eq_none h2]
  · intro s tok h
    unfold _parse_price
    rw [h]
    dsimp only
    by_cases hv : ratOfToken tok < 1 <;> simp [hv]

/-- C8 witness: absence on an input with no numeric token. -/
theorem c8_parse_price_witness : _parse_price "no price here" = none :=
  c8_parse_price.2.1 "no price here" (by decide)

theorem dedupGo_sublist (seen : List (String × ℤ)) (l : List Outcome) :
    (dedupGo seen l).Sublist l := by
  induction l generalizing seen with
  | nil => simp [dedupGo]
  | cons o rest ih =>
    unfold dedupGo
    split
    · exact (ih seen).cons o
    · exact (ih _).cons₂ o

theorem dedupGo_key_not_seen (seen : List (String × ℤ)) (l : List Outcome) :
    ∀ o ∈ dedupGo seen l, outcomeKey o ∉ seen := by
  induction l generalizing seen with
  | nil => simp [dedupGo]
  | cons x rest ih =>
    unfold dedupGo
    split
    · exact ih seen
    · rename_i hx
      intro o ho
      rcases List.mem_cons.mp ho with rfl | ho'
      · exact hx
      · intro hmem
        exact ih _ o ho' (List.mem_cons_of_mem _ hmem)

theorem dedupGo_keys_nodup (seen : List (String × ℤ)) (l : List Outcome) :
    ((dedupGo seen l).map outcomeKey).Nodup := by
  induction l generalizing seen with
  | nil => simp [dedupGo]
  | cons x rest ih =>
    unfold dedupGo
    split
    · exact ih seen
    · simp only [List.map_cons, List.nodup_cons]
      refine ⟨?_, ih _⟩
      intro hmem
      obtain ⟨o, ho, hk⟩ := List.mem_map.mp hmem
      exact dedupGo_key_not_seen _ _ o ho (hk ▸ List.mem_cons_self _ _)

theorem dedupGo_first_occurrence (seen : List (String × ℤ)) (l : List Outcome) :
    ∀ o ∈ dedupGo seen l,
      (l.filter fun x => outcomeKey x = outcomeKey o).head? = some o := by
  induction l generalizing seen with
  | nil => simp [dedupGo]
  | cons x rest ih =>
    unfold dedupGo
    split
    · rename_i hx
      intro o ho
      have hno : outcomeKey o ∉ seen := dedupGo_key_not_seen seen rest o ho
      have hne : ¬(outcomeKey x = outcomeKey o) := fun he => hno (he ▸ hx)
      rw [List.filter_cons, if_neg (by simpa using hne)]
      exact ih seen o ho
    · rename_i hx
      intro o ho
      rcases List.mem_cons.mp ho with rfl | ho'
      · rw [List.filter_cons, if_pos (by simp)]
        rfl
      · have hno : outcomeKey o ∉ (outcomeKey x :: seen) :=
          dedupGo_key_not_seen _ rest o ho'
        have hne : ¬(outcomeKey x = outcomeKey o) := fun he =>
          hno (he ▸ List.mem_cons_self _ _)
        rw [List.filter_cons, if_neg (by simpa using hne)]
        exact ih _ o ho'

theorem dedupGo_complete (seen : List (String × ℤ)) (l : List Outcome) :
    ∀ o ∈ l, outcomeKey o ∈ seen ∨
      ∃ o2 ∈ dedupGo seen l, outcomeKey o2 = outcomeKey o := by
  induction l generalizing seen with
  | nil => simp
  | cons x rest ih =>
    intro o ho
    unfold dedupGo
    rcases List.mem_cons.mp ho with rfl | ho'
    · split
      · rename_i hx
        exact Or.inl hx
      · exact Or.inr ⟨o, List.mem_cons_self _ _, rfl⟩
    · split
      · exact ih seen o ho'
      · rcases ih (outcomeKey x :: seen) o ho' with h | ⟨o2, ho2, hk⟩
        · rcases List.mem_cons.mp h with he | hseen
          · exact Or.inr ⟨x, List.mem_cons_self _ _, he.symm⟩
          · exact Or.inl hseen
        · exact Or.inr ⟨o2, List.mem_cons_of_mem _ ho2, hk⟩

/-- C9: deduplication keeps a subsequence of the input (so order and the
original raw fields are preserved), kept keys are pairwise distinct, every
kept outcome is the first input element carrying its key, and every input
key is still represented. -/
theorem c9_dedup (l : List Outcome) :
    (dedupOutcomes l).Sublist l ∧
    ((dedupOutcomes l).map outcomeKey).Nodup ∧
    (∀ o ∈ dedupOutcomes l,
      (l.filter fun x => outcomeKey x = outcomeKey o).head? = some o) ∧
    (∀ o ∈ l, ∃ o2 ∈ dedupOutcomes l, outcomeKey o2 = outcomeKey o) := by
  refine ⟨dedupGo_sublist [] l, dedupGo_keys_nodup [] l,
    dedupGo_first_occurrence [] l, ?_⟩
  intro o ho
  rcases dedupGo_complete [] l o ho with h | h
  · simp at h
  · exact h

/-- C9 witness: deduplication applied to a concrete list with a duplicate
(label, price) pair, collapsing it to the first occurrences. -/
theorem c9_dedup_witness :
    dedupOutcomes
        [⟨"Yes", 65, "65%"⟩, ⟨"Yes", 65, "dup"⟩, ⟨"No", 35, "35%"⟩] =
      [⟨"Yes", 65, "65%"⟩, ⟨"No", 35, "35%"⟩] ∧
    (dedupOutcomes
        [⟨"Yes", 65, "65%"⟩, ⟨"Yes", 65, "dup"⟩, ⟨"No", 35, "35%"⟩]).Sublist
      [⟨"Yes", 65, "65%"⟩, ⟨"Yes", 65, "dup"⟩, ⟨"No", 35, "35%"⟩] :=
  ⟨by decide,
   (c9_dedup [⟨"Yes", 65, "65%"⟩, ⟨"Yes", 65, "dup"⟩, ⟨"No", 35, "35%"⟩]).1⟩

theorem browseGo_eq (mm : ℤ) (evs : List RawEvent) (n : ℕ) :
    browseGo mm evs n =
      ((evs.filter keepEvent).map mkBrowseEntry).take (max (mm - n).toNat 1) := by
  induction evs generalizing n with
  | nil => simp [browseGo]
  | cons e rest ih =>
    unfold browseGo
    by_cases hk : keepEvent e
    · rw [if_pos hk, List.filter_cons, if_pos hk, List.map_cons]
      by_cases hbreak : ((n : ℤ) + 1) ≥ mm
      · rw [if_pos hbreak]
        have ht : (mm - n).toNat ≤ 1 := by omega
        rw [Nat.max_eq_right ht]
        rfl
      · rw [if_neg hbreak]
        rw [ih (n + 1)]
        have ha : 1 ≤ (mm - n).toNat := by omega
        have hb : 1 ≤ (mm - ((n : ℕ) + 1 : ℕ)).toNat := by push_cast; omega
        rw [Nat.max_eq_left ha, Nat.max_eq_left hb]
        have hc : (mm - n).toNat = (mm - ((n : ℕ) + 1 : ℕ)).toNat + 1 := by
          push_cast
          omega
        rw [hc, List.take_succ_cons]
    · rw [if_neg hk, List.filter_cons, if_neg hk]
      exact ih n

/-- C6 counterexample: with a maximum of zero and one valid event the
builder still produces one entry, exceeding the requested maximum. -/
theorem c6_counterexample :
    (events_to_browse_list
      [{ title := some "Event A", event_ticker := some "EVA",
         series_ticker := some "EVA" }] 0).length = 1 := by decide

/-- C6 amended: the browse list is exactly the kept events (those with a
non-empty title and event ticker, in input order) mapped to entries and
truncated at the larger of the maximum and one; consequently for any
maximum of at least one the output never exceeds the maximum. -/
theorem c6_browse_cap (evs : List RawEvent) (mm : ℤ) :
    events_to_browse_list evs mm =
      ((evs.filter keepEvent).map mkBrowseEntry).take (max mm.toNat 1) ∧
    (1 ≤ mm → ((events_to_browse_list evs mm).length : ℤ) ≤ mm) := by
  have h := browseGo_eq mm evs 0
  have h0 : mm - ((0 : ℕ) : ℤ) = mm := by simp
  rw [h0] at h
  constructor
  · exact h
  · intro hmm
    unfold events_to_browse_list
    rw [h, List.length_take]
    have hmax : max mm.toNat 1 = mm.toNat := Nat.max_eq_left (by omega)
    rw [hmax]
    have := Nat.min_le_left mm.toNat
      ((evs.filter keepEvent).map mkBrowseEntry).length
    omega

/-- C6 witness: the cap applied to three valid events with a maximum of
two. -/
theorem c6_browse_cap_witness :
    ((events_to_browse_list
      [{ title := some "Event A", event_ticker := some "EVA",
         series_ticker := some "EVA" },
       { title := some "Event B", event_ticker := some "EVB",
         series_ticker := some "EVB" },
       { title := some "Event C", event_ticker := some "EVC",
         series_ticker := some "EVC" }] 2).length : ℤ) ≤ 2 :=
  (c6_browse_cap
    [{ title := some "Event A", event_ticker := some "EVA",
       series_ticker := some "EVA" },
     { title := some "Event B", event_ticker := some "EVB",
       series_ticker := some "EVB" },
     { title := some "Event C", event_ticker := some "EVC",
       series_ticker := some "EVC" }] 2).2 (by norm_num)

/-- C10: when the parsed intent carries no event ticker (home or
category) the entrypoint returns the uniform error shape without
consulting the collaborator at all; and when the collaborator raises, the
same error shape carries the exception text. -/
theorem c10_market_error_shape :
    (∀ (fetchEv : String → Except String RawEvent) (url : String) (i : Intent),
      parse_kalshi_url url = .ok i → getEventTicker i = none →
      marketEntry fetchEv url =
        .ok { title := none, outcomes := [], status := "error",
              error := some ("Could not extract event ticker from URL: " ++ url) }) ∧
    (∀ (fetchEv : String → Except String RawEvent) (url : String) (i : Intent)
        (t msg : String),
      parse_kalshi_url url = .ok i → getEventTicker i = some t → t ≠ "" →
      fetchEv t = .error msg →
      marketEntry fetchEv url =
        .ok { title := none, outcomes := [], status := "error",
              error := some msg }) := by
  constructor
  · intro f url i hp hn
    unfold marketEntry
    rw [hp]
    dsimp only
    rw [hn]
    rfl
  · intro f url i t msg hp ht hne hf
    unfold marketEntry
    rw [hp]
    dsimp only
    rw [ht]
    dsimp only [Option.getD]
    rw [if_neg hne, hf]

/-- C10 witness: the error shape on the home URL (no ticker, arbitrary
collaborator) and on a ticker whose fetch raises. -/
theorem c10_market_error_shape_witness :
    marketEntry (fun _ => .ok {}) "https://kalshi.com" =
      .ok { title := none, outcomes := [], status := "error",
            error := some ("Could not extract event ticker from URL: " ++
              "https://kalshi.com") } ∧
    marketEntry (fun _ => .error "boom") "KXFED-26MAR" =
      .ok { title := none, outcomes := [], status := "error",
            error := some "boom" } := by
  constructor
  · exact c10_market_error_shape.1 (fun _ => .ok {}) "https://kalshi.com"
      .home rfl rfl
  · exact c10_market_error_shape.2 (fun _ => .error "boom") "KXFED-26MAR"
      (.eventTicker "KXFED-26MAR") "KXFED-26MAR" "boom" rfl rfl
      (by decide) rfl

/-- C7 counterexample: on an input with surrounding whitespace the ticker
is the upper-cased stripped input, not the upper-cased input itself. -/
theorem c7_counterexample :
    parse_kalshi_url " abc " = .ok (.eventTicker "ABC") ∧
    ("ABC" : String) ≠ " ABC " :=
  ⟨rfl, by decide⟩

/-- C7 amended: on every ASCII string with no slash and no dot, the
parser returns the event-ticker intent with the upper-cased
whitespace-stripped input as the ticker. -/
theorem c7_bare_ticker (s : String)
    (_hascii : ∀ c ∈ s.data, c.toNat ≤ 127)
    (h1 : '/' ∉ s.data) (h2 : '.' ∉ s.data) :
    parse_kalshi_url s = .ok (.eventTicker (pyUpper (pyStrip s))) := by
  have hnot : ¬('/' ∈ (pyStrip s).data ∨ '.' ∈ (pyStrip s).data) := by
    rintro (hc | hc)
    · exact h1 (mem_of_mem_stripEdge hc)
    · exact h2 (mem_of_mem_stripEdge hc)
  unfold parse_kalshi_url
  dsimp only
  rw [if_neg hnot]

/-- C7 witness: the amended statement applied to a lower-case bare
ticker. -/
theorem c7_bare_ticker_witness :
    parse_kalshi_url "kxfed-26mar" =
      .ok (.eventTicker (pyUpper (pyStrip "kxfed-26mar"))) :=
  c7_bare_ticker "kxfed-26mar" (by decide) (by decide) (by decide)

theorem mem_of_mem_takeWhile {p : Char → Bool} {l : List Char} {c : Char}
    (h : c ∈ l.takeWhile p) : c ∈ l :=
  (List.takeWhile_sublist _).subset h

theorem splitScheme_snd_subset (l : List Char) :
    ∀ c ∈ (splitScheme l).2, c ∈ l := by
  intro c hc
  unfold splitScheme at hc
  dsimp only at hc
  split at hc
  · exact (List.drop_sublist _ _).subset hc
  · exact hc

theorem urlparse_netloc_subset (l : List Char) :
    ∀ c ∈ ((splitScheme ((l.dropWhile isC0OrSpace).filter
        (fun c => !isUnsafeUrlByte c))).2.drop 2).takeWhile
        (fun c => !isNetlocDelim c), c ∈ l := by
  intro c hc
  have hc1 := mem_of_mem_takeWhile hc
  have hc2 := (List.drop_sublist _ _).subset hc1
  have hc3 := splitScheme_snd_subset _ c hc2
  have hc4 := (List.filter_sublist _).subset hc3
  exact (List.dropWhile_sublist _).subset hc4

theorem urlparsePath_ok_of_no_brackets (l : List Char)
    (h1 : '[' ∉ l) (h2 : ']' ∉ l) :
    ∃ path, urlparsePath l = .ok path := by
  unfold urlparsePath
  dsimp only
  split
  · rw [if_neg]
    · exact ⟨_, rfl⟩
    · rintro (⟨hin, -⟩ | ⟨hin, -⟩)
      · exact h1 (urlparse_netloc_subset l _ hin)
      · exact h2 (urlparse_netloc_subset l _ hin)
  · exact ⟨_, rfl⟩

/-- C4 counterexample: the parser is not total — on this input the
modelled URL splitter raises ValueError for an unbalanced bracket in the
network location, as CPython does. -/
theorem c4_counterexample :
    parse_kalshi_url "http://[" = .error "Invalid IPv6 URL" := rfl

/-- C4 amended: on every ASCII input string containing no square
bracket the parser returns exactly one intent and never raises;
totality over all strings fails only through the bracket check of the
URL splitter. -/
theorem c4_total_on_bracket_free (s : String)
    (_hascii : ∀ c ∈ s.data, c.toNat ≤ 127)
    (h1 : '[' ∉ s.data) (h2 : ']' ∉ s.data) :
    ∃ i : Intent, parse_kalshi_url s = .ok i := by
  unfold parse_kalshi_url
  dsimp only
  by_cases hb : '/' ∈ (pyStrip s).data ∨ '.' ∈ (pyStrip s).data
  · rw [if_pos hb]
    have hb1 : '[' ∉ (pyStrip s).data := fun hc => h1 (mem_of_mem_stripEdge hc)
    have hb2 : ']' ∉ (pyStrip s).data := fun hc => h2 (mem_of_mem_stripEdge hc)
    obtain ⟨path, hp⟩ := urlparsePath_ok_of_no_brackets (pyStrip s).data hb1 hb2
    rw [hp]
    dsimp only
    split
    · exact ⟨_, rfl⟩
    · exact ⟨_, rfl⟩
  · rw [if_neg hb]
    exact ⟨_, rfl⟩

/-- C4 witness: a successful parse of a concrete bracket-free URL. -/
theorem c4_total_on_bracket_free_witness :
    (parse_kalshi_url "https://kalshi.com/category/economics").toOption.isSome
      = true := by
  obtain ⟨i, hi⟩ := c4_total_on_bracket_free
    "https://kalshi.com/category/economics" (by decide) (by decide) (by decide)
  rw [hi]
  rfl

theorem isLowerAlnum_ne_hyphen {c : Char} (h : isLowerAlnum c = true) :
    c ≠ '-' := fun he => by
  subst he
  exact absurd h (by decide)

theorem collapseRuns_cons_alnum {c : Char} (h : isLowerAlnum c = true)
    (t : List Char) : collapseRuns (c :: t) = c :: collapseRuns t := by
  cases t with
  | nil => simp [collapseRuns, h]
  | cons d rest => simp [collapseRuns, h]

theorem collapseRuns_cons_cons_mid {a d : Char} (ha : isLowerAlnum a = false)
    (hd : isLowerAlnum d = true) (rest : List Char) :
    collapseRuns (a :: d :: rest) = '-' :: collapseRuns (d :: rest) := by
  simp [collapseRuns, ha, hd]

theorem collapseRuns_cons_cons_skip {a d : Char} (ha : isLowerAlnum a = false)
    (hd : isLowerAlnum d = false) (rest : List Char) :
    collapseRuns (a :: d :: rest) = collapseRuns (d :: rest) := by
  simp [collapseRuns, ha, hd]

theorem collapseRuns_singleton_alnum {a : Char} (ha : isLowerAlnum a = true) :
    collapseRuns [a] = [a] := by
  simp [collapseRuns, ha]

theorem collapseRuns_singleton_non {a : Char} (ha : isLowerAlnum a = false) :
    collapseRuns [a] = ['-'] := by
  simp [collapseRuns, ha]

theorem collapseRuns_chars :
    ∀ l : List Char, ∀ c ∈ collapseRuns l, isLowerAlnum c = true ∨ c = '-' := by
  intro l
  induction l with
  | nil => simp [collapseRuns]
  | cons a t ih =>
    cases t with
    | nil =>
      intro c hc
      by_cases ha : isLowerAlnum a = true
      · rw [collapseRuns_singleton_alnum ha] at hc
        simp at hc
        subst hc
        exact Or.inl ha
      · rw [collapseRuns_singleton_non (by simpa using ha)] at hc
        simp at hc
        subst hc
        exact Or.inr rfl
    | cons d rest =>
      intro c hc
      by_cases ha : isLowerAlnum a = true
      · rw [collapseRuns_cons_alnum ha] at hc
        rcases List.mem_cons.mp hc with rfl | hc'
        · exact Or.inl ha
        · exact ih c hc'
      · by_cases hd : isLowerAlnum d = true
        · rw [collapseRuns_cons_cons_mid (by simpa using ha) hd] at hc
          rcases List.mem_cons.mp hc with rfl | hc'
          · exact Or.inr rfl
          · exact ih c hc'
        · rw [collapseRuns_cons_cons_skip (by simpa using ha)
            (by simpa using hd)] at hc
          exact ih c hc

theorem collapseRuns_head_alnum {d : Char} (hd : isLowerAlnum d = true)
    (rest : List Char) : (collapseRuns (d :: rest)).head? = some d := by
  rw [collapseRuns_cons_alnum hd]
  rfl

theorem collapseRuns_chain' : ∀ l : List Char, NoAdjHyphen (collapseRuns l) := by
  intro l
  induction l with
  | nil => simp [collapseRuns, NoAdjHyphen]
  | cons a t ih =>
    cases t with
    | nil =>
      by_cases ha : isLowerAlnum a = true
      · rw [collapseRuns_singleton_alnum ha]
        exact List.chain'_singleton a
      · rw [collapseRuns_singleton_non (by simpa using ha)]
        exact List.chain'_singleton _
    | cons d rest =>
      by_cases ha : isLowerAlnum a = true
      · rw [collapseRuns_cons_alnum ha]
        unfold NoAdjHyphen at ih ⊢
        rw [List.chain'_cons']
        exact ⟨fun y _ h => isLowerAlnum_ne_hyphen ha h.1, ih⟩
      · by_cases hd : isLowerAlnum d = true
        · rw [collapseRuns_cons_cons_mid (by simpa using ha) hd]
          unfold NoAdjHyphen at ih ⊢
          rw [List.chain'_cons']
          refine ⟨?_, ih⟩
          intro y hy
          rw [collapseRuns_head_alnum hd] at hy
          simp at hy
          subst hy
          exact fun h => isLowerAlnum_ne_hyphen hd h.2
        · rw [collapseRuns_cons_cons_skip (by simpa using ha)
            (by simpa using hd)]
          exact ih

theorem collapseRuns_fixed :
    ∀ l : List Char, (∀ c ∈ l, isLowerAlnum c = true ∨ c = '-') →
      NoAdjHyphen l → l.getLast? ≠ some '-' → collapseRuns l = l := by
  intro l
  induction l with
  | nil => intro _ _ _; rfl
  | cons a t ih =>
    intro hchars hchain hlast
    cases t with
    | nil =>
      have ha : isLowerAlnum a = true := by
        rcases hchars a (List.mem_cons_self _ _) with h | h
        · exact h
        · exact absurd (show ([a] : List Char).getLast? = some '-' by
            rw [h]; rfl) hlast
      exact collapseRuns_singleton_alnum ha
    | cons d rest =>
      have hchars' : ∀ c ∈ d :: rest, isLowerAlnum c = true ∨ c = '-' :=
        fun c hc => hchars c (List.mem_cons_of_mem _ hc)
      have hchain' : NoAdjHyphen (d :: rest) := by
        unfold NoAdjHyphen at hchain ⊢
        exact (List.chain'_cons'.mp hchain).2
      have hlast' : (d :: rest).getLast? ≠ some '-' := by
        rwa [List.getLast?_cons_cons] at hlast
      rcases hchars a (List.mem_cons_self _ _) with ha | ha
      · rw [collapseRuns_cons_alnum ha, ih hchars' hchain' hlast']
      · have hd : d ≠ '-' := by
          unfold NoAdjHyphen at hchain
          have hr := (List.chain'_cons'.mp hchain).1 d rfl
          exact fun he => hr ⟨ha, he⟩
        have hdal : isLowerAlnum d = true := by
          rcases hchars' d (List.mem_cons_self _ _) with h | h
          · exact h
          · exact absurd h hd
        subst ha
        rw [collapseRuns_cons_cons_mid (by decide) hdal,
          ih hchars' hchain' hlast']

theorem pyLowerChar_fixed {c : Char} (h : isLowerAlnum c = true ∨ c = '-') :
    pyLowerChar c = c := by
  rcases h with h | h
  · simp only [isLowerAlnum, decide_eq_true_eq] at h
    have hno : ¬(65 ≤ c.toNat ∧ c.toNat ≤ 90) := by
      rcases h with ⟨h1, h2⟩ | ⟨h1, h2⟩ <;> omega
    simp [pyLowerChar, hno]
  · subst h
    decide

theorem slugCore_chars (t : String) :
    ∀ c ∈ slugCore t, isLowerAlnum c = true ∨ c = '-' := by
  intro c hc
  unfold slugCore at hc
  exact collapseRuns_chars _ c (mem_of_mem_stripEdge hc)

theorem slugCore_head_ne (t : String) : (slugCore t).head? ≠ some '-' := by
  intro h
  unfold slugCore at h
  exact absurd (stripEdge_head h) (by decide)

theorem slugCore_getLast_ne (t : String) : (slugCore t).getLast? ≠ some '-' := by
  intro h
  unfold slugCore at h
  exact absurd (stripEdge_getLast h) (by decide)

theorem slugCore_chain' (t : String) : NoAdjHyphen (slugCore t) := by
  unfold NoAdjHyphen slugCore
  exact List.Chain'.infix (collapseRuns_chain' _) (stripEdge_within _ _)

theorem slug_fixed_of_canonical (s : List Char)
    (hchars : ∀ c ∈ s, isLowerAlnum c = true ∨ c = '-')
    (hchain : NoAdjHyphen s)
    (hhead : s.head? ≠ some '-')
    (hlast : s.getLast? ≠ some '-')
    (hlen : s.length ≤ 60) :
    _ticker_to_slug (⟨s⟩ : String) = (⟨s⟩ : String) := by
  have hh : ∀ c : Char, s.head? = some c → c ≠ '-' :=
    fun c hc he => hhead (he ▸ hc)
  have hl : ∀ c : Char, s.getLast? = some c → c ≠ '-' :=
    fun c hc he => hlast (he ▸ hc)
  unfold _ticker_to_slug slugCore
  have hlow : (pyLower ⟨s⟩).data = s := by
    show s.map pyLowerChar = s
    exact map_eq_self_of_fixed s fun c hc => pyLowerChar_fixed (hchars c hc)
  rw [hlow]
  rw [collapseRuns_fixed s hchars hchain hlast]
  rw [stripEdge_eq_self (fun c hc => by simpa using hh c hc)
    (fun c hc => by simpa using hl c hc)]
  rw [List.take_of_length_le hlen]

/-- C5 counterexample: the 61-character title below slugs to a
60-character string ending in a hyphen (truncation cuts at a hyphen), and
re-slugging that output strips the hyphen, so the generator is neither
trailing-hyphen-free nor idempotent on this input. -/
theorem c5_counterexample :
    (_ticker_to_slug
      "aaaaaaaaaaaaaaaaaaaaaaaaaaaaaaaaaaaaaaaaaaaaaaaaaaaaaaaaaaa b").data.getLast?
      = some '-' ∧
    _ticker_to_slug (_ticker_to_slug
      "aaaaaaaaaaaaaaaaaaaaaaaaaaaaaaaaaaaaaaaaaaaaaaaaaaaaaaaaaaa b") ≠
      _ticker_to_slug
        "aaaaaaaaaaaaaaaaaaaaaaaaaaaaaaaaaaaaaaaaaaaaaaaaaaaaaaaaaaa b" := by
  exact ⟨by decide, by decide⟩

/-- C5 amended: the slug never exceeds 60 characters, contains no
uppercase letter, and never starts with a hyphen; whenever the
pre-truncation slug already fits in 60 characters (so truncation cannot
cut at a hyphen), re-slugging the output is the identity and the output
has no trailing hyphen. -/
theorem c5_slug_properties (t : String) :
    (_ticker_to_slug t).length ≤ 60 ∧
    (∀ c ∈ (_ticker_to_slug t).data, ¬(65 ≤ c.toNat ∧ c.toNat ≤ 90)) ∧
    (_ticker_to_slug t).data.head? ≠ some '-' ∧
    ((slugCore t).length ≤ 60 →
      _ticker_to_slug (_ticker_to_slug t) = _ticker_to_slug t ∧
      (_ticker_to_slug t).data.getLast? ≠ some '-') := by
  refine ⟨?_, ?_, ?_, ?_⟩
  · show ((slugCore t).take 60).length ≤ 60
    rw [List.length_take]
    exact Nat.min_le_left _ _
  · intro c hc
    have hc' : c ∈ slugCore t := (List.take_sublist _ _).subset hc
    rcases slugCore_chars t c hc' with h | h
    · simp only [isLowerAlnum, decide_eq_true_eq] at h
      rcases h with ⟨h1, h2⟩ | ⟨h1, h2⟩ <;> omega
    · subst h
      decide
  · show ((slugCore t).take 60).head? ≠ some '-'
    rw [head?_take_sixty]
    exact slugCore_head_ne t
  · intro hlen
    have heq : _ticker_to_slug t = (⟨slugCore t⟩ : String) := by
      unfold _ticker_to_slug
      rw [List.take_of_length_le hlen]
    have hfix : _ticker_to_slug (⟨slugCore t⟩ : String) = ⟨slugCore t⟩ :=
      slug_fixed_of_canonical (slugCore t) (slugCore_chars t)
        (slugCore_chain' t) (slugCore_head_ne t) (slugCore_getLast_ne t) hlen
    rw [heq]
    exact ⟨hfix, slugCore_getLast_ne t⟩

/-- C5 witness: the amended statement applied to a short title whose slug
fits in 60 characters. -/
theorem c5_slug_properties_witness :
    _ticker_to_slug (_ticker_to_slug "Hello, World!") =
      _ticker_to_slug "Hello, World!" ∧
    (_ticker_to_slug "Hello, World!").data.getLast? ≠ some '-' :=
  (c5_slug_properties "Hello, World!").2.2.2 (by decide)

end OpenKalsh
